import Mathlib

/-!
Verification of the merkle hash-tree store in
`src/include/libtorrent/aux_/merkle_tree.hpp`.

Hash values (32-byte SHA-256 digests) are modelled as natural numbers, with
`0` standing for the all-zero digest produced by a default-constructed
`sha256_hash`.  The node array `m_full_tree` (an `aux::vector<sha256_hash>`)
is modelled as a `List Hash`.  Functions declared in `merkle.hpp`
(`merkle_num_leafs`, `merkle_num_nodes`, `merkle_fill_tree`,
`merkle_clear_tree`) are not part of the excerpt; they are modelled from the
specification's description of the layer arithmetic, fill and clear, and
each such definition is marked `Modelled from the spec`.
-/

namespace LibtorrentMerkle

/-- Type of hash values: a 32-byte SHA-256 digest, modelled abstractly as a
natural number.  Equality of digests is equality of the numbers. -/
abbrev Hash := Nat

/-- Value of a default-constructed `sha256_hash`: the all-zero digest. -/
def zero_hash : Hash := 0

/-- Doubling loop computing the smallest power of two `≥ n`, starting from
the candidate `ret`; fuelled so that it is structurally recursive (a fuel of
`n` always suffices, since doubling from `1` exceeds `n` within `n` steps). -/
def leafs_loop : Nat → Nat → Nat → Nat
  | 0, _, ret => ret
  | fuel + 1, n, ret => if n ≤ ret then ret else leafs_loop fuel n (2 * ret)

/-- Modelled from the spec: `merkle_num_leafs` (declared in `merkle.hpp`,
which is not part of the excerpt).  Per the spec, `leaf_count(block_count)`
is the smallest power of two `≥ block_count` for `block_count ≥ 1`;
`block_count = 0` is invalid caller input.  The total model saturates at `1`
for non-positive inputs, which is the smallest power of two `≥ 0`. -/
def merkle_num_leafs (num_blocks : Int) : Nat :=
  leafs_loop num_blocks.toNat num_blocks.toNat 1

/-- Modelled from the spec: `merkle_num_nodes` (declared in `merkle.hpp`):
`node_count(L) = 2*L - 1`, the node count of a complete binary tree with
`L` leaves. -/
def merkle_num_nodes (leafs : Nat) : Nat := 2 * leafs - 1

/-- Source lines 59-63: `merkle_tree(int num_blocks, char const* root)`
allocates `merkle_num_nodes(merkle_num_leafs(num_blocks))` zero-valued
slots and then writes the root digest into slot 0.  There is no validation
of `num_blocks` anywhere in the constructor. -/
def new_tree (num_blocks : Int) (root : Hash) : List Hash :=
  (List.replicate (merkle_num_nodes (merkle_num_leafs num_blocks)) zero_hash).set 0 root

/-- Source line 58: the default constructor leaves the node array empty. -/
def default_tree : List Hash := []

/-- Source line 64: `merkle_tree(std::vector<sha256_hash> const&)` copies
the given vector into the node array with no validation. -/
def from_vector (v : List Hash) : List Hash := v

/-- Source line 66: `root()` returns `m_full_tree[0]` by value.  This model
makes the bounds condition of the unchecked subscript explicit: `none`
exactly when index 0 is out of bounds (empty node array). -/
def rootChecked (m : List Hash) : Option Hash := m[0]?

/-- Source line 66, value semantics of the unchecked read in `root()`: on a
non-empty tree it yields slot 0; on an empty tree the subscript is out of
bounds and the call yields whatever value the stray read observes, modelled
by the parameter `junk`. -/
def root_val (junk : Hash) (m : List Hash) : Hash := m.headD junk

/-- Source lines 68-75: `load_tree` returns early (leaving the tree
unchanged, signalling nothing) when the candidate `t` is empty, when
`m_full_tree[0] != t[0]`, or when the sizes differ; otherwise it assigns
the candidate wholesale.  The source reads `m_full_tree[0]` whenever the
candidate is non-empty, even when the current tree is empty; `junk` stands
for the value such an out-of-bounds read would observe (the outcome below
is the same for every `junk`, see the theorems). -/
def load_tree (junk : Hash) (m t : List Hash) : List Hash :=
  if t = [] then m
  else if m.headD junk ≠ t.headD junk then m
  else if m.length ≠ t.length then m
  else t

/-- Source lines 68-75 with checked subscripts: identical control flow to
`load_tree`, but the read of `m_full_tree[0]` is bounds-checked and the
run faults (`none`) when it is out of bounds, i.e. exactly when the current
tree is empty and the candidate is not. -/
def load_treeChecked (m t : List Hash) : Option (List Hash) :=
  if t = [] then some m
  else match m[0]? with
    | none => none
    | some r =>
      if r ≠ t.headD 0 then some m
      else if m.length ≠ t.length then some m
      else some t

/-- Source lines 78-85: `leafs()` returns the view of `num_leafs` nodes
starting at `leafs_start`, where `num_leafs = (size + 1) / 2` and
`leafs_start = size - num_leafs`. -/
def leafs (m : List Hash) : List Hash :=
  (m.drop (m.length - (m.length + 1) / 2)).take ((m.length + 1) / 2)

/-- Source line 87: `size()`. -/
def size (m : List Hash) : Nat := m.length

/-- Source lines 91-92: the public mutable `operator[]`, i.e. an arbitrary
indexed write `tree[idx] = v` through the public interface. -/
def set_node (m : List Hash) (idx : Nat) (v : Hash) : List Hash := m.set idx v

/-- Source lines 94-98: `build_vector()` returns an independent copy of the
whole node sequence. -/
def build_vector (m : List Hash) : List Hash := m

/-- Modelled from the spec: the padding-hash chain (`merkle.hpp` is not part
of the excerpt).  `pad 0` is the hash of an all-zero block (abstract
parameter `p0`); `pad (k+1) = Hash(pad k || pad k)`, where `H` is the
pairwise SHA-256 combination of two digests. -/
def pad_hash (H : Hash → Hash → Hash) (p0 : Hash) : Nat → Hash
  | 0 => p0
  | k + 1 => H (pad_hash H p0 k) (pad_hash H p0 k)

/-- Modelled from the spec: one layer step of `merkle_fill_tree`.  The
layer of size `sz` (a power of two) occupies indices `[sz-1, 2*sz-1)`; its
parent layer occupies `[sz/2-1, sz-1)`.  For each parent `i < sz/2` the
children are at layer offsets `2*i` and `2*i+1`; a child at an offset `≥
valid` (beyond the populated extent of the layer) is substituted with the
padding digest `pad` for this depth instead of being read from storage. -/
def fill_step (H : Hash → Hash → Hash) (pad : Hash) (valid sz : Nat)
    (m : List Hash) : List Hash :=
  (List.range (sz / 2)).foldl
    (fun acc i =>
      acc.set (sz / 2 - 1 + i)
        (H (if 2 * i < valid then acc.getD (sz - 1 + 2 * i) zero_hash else pad)
           (if 2 * i + 1 < valid then acc.getD (sz + 2 * i) zero_hash else pad)))
    m

/-- Modelled from the spec: the bottom-up walk of `merkle_fill_tree`.
`k` is the number of layer steps left; the current layer has size `2^k`.
Each step computes the parent layer from the current one and then moves up
with the halved valid extent `(valid+1)/2` and the next padding digest
`H pad pad`, until the root layer (size `2^0`) is reached. -/
def fill_levels (H : Hash → Hash → Hash) : Nat → Hash → Nat → List Hash → List Hash
  | 0, _, _, m => m
  | k + 1, pad, valid, m =>
      fill_levels H k (H pad pad) ((valid + 1) / 2) (fill_step H pad valid (2 ^ (k + 1)) m)

/-- Structural base-2 logarithm used to count layer steps (fuelled so that
it reduces definitionally; the fuel `n` always suffices). -/
def log2_aux : Nat → Nat → Nat
  | 0, _ => 0
  | fuel + 1, n => if n ≤ 1 then 0 else log2_aux fuel (n / 2) + 1

/-- Modelled from the spec: `merkle_fill_tree(tree, piece_layer_size)`
(source lines 101-104 call it; the callee is in `merkle.hpp`, not part of
the excerpt).  Starting from the leaf layer, of which `piece_layer_size`
entries are populated and the rest are padding, it recomputes every parent
layer up to the root with `parent = Hash(left || right)`, substituting the
depth-appropriate padding digest for children beyond the populated
extent. -/
def merkle_fill_tree (H : Hash → Hash → Hash) (p0 : Hash) (m : List Hash)
    (piece_layer_size : Nat) : List Hash :=
  fill_levels H (log2_aux ((m.length + 1) / 2) ((m.length + 1) / 2)) p0 piece_layer_size m

/-- Modelled from the spec: zero-fill of the `len` node slots starting at
index `s` (out-of-range slots are left as-is, as `List.set` is a no-op
there). -/
def zero_range : List Hash → Nat → Nat → List Hash
  | m, _, 0 => m
  | m, s, len + 1 => zero_range (m.set s zero_hash) (s + 1) len

/-- Modelled from the spec: the layer walk of `merkle_clear_tree`
(source lines 111-114 call it; the callee is in `merkle.hpp`, not part of
the excerpt).  Starting at the layer of `sz` nodes at index `start`, it
zero-fills whole layers, moving to the parent layer (`(start-1)/2`, half
the size) until a single node remains.  The fuel `fuel` always suffices
when it is at least `sz`. -/
def clear_aux : Nat → Nat → Nat → List Hash → List Hash
  | 0, _, _, m => m
  | fuel + 1, sz, start, m =>
      if sz ≤ 1 then (if sz = 1 then zero_range m start 1 else m)
      else clear_aux fuel (sz / 2) ((start - 1) / 2) (zero_range m start sz)

/-- Modelled from the spec: `merkle_clear_tree(tree, num_leafs, level_start)`
zero-fills the whole layers from `level_start` (a layer of `num_leafs`
nodes) up toward the root; it only resets contents, never the shape. -/
def merkle_clear_tree (m : List Hash) (num_leafs level_start : Nat) : List Hash :=
  clear_aux (num_leafs + 1) num_leafs level_start m

/-- Modelled from the spec: the set of node indices targeted (zero-filled)
by `merkle_clear_tree`, following the same layer walk as `clear_aux`. -/
def clear_targets_aux : Nat → Nat → Nat → List Nat
  | 0, _, _ => []
  | fuel + 1, sz, start =>
      if sz ≤ 1 then (if sz = 1 then [start] else [])
      else (List.range sz).map (start + ·) ++ clear_targets_aux fuel (sz / 2) ((start - 1) / 2)

/-- Modelled from the spec: indices targeted by `merkle_clear_tree`. -/
def clear_targets (num_leafs level_start : Nat) : List Nat :=
  clear_targets_aux (num_leafs + 1) num_leafs level_start

/- ------------------------------------------------------------------ -/
/- Helper lemmas                                                      -/
/- ------------------------------------------------------------------ -/

/-- Characterization of `load_tree`: for every value of the (possibly
out-of-bounds) slot-0 read, the result is the candidate when all four
acceptance conditions hold and the unchanged current tree otherwise. -/
theorem load_tree_eq (junk : Hash) (m t : List Hash) :
    load_tree junk m t =
      if t ≠ [] ∧ m ≠ [] ∧ m.headD zero_hash = t.headD zero_hash ∧ m.length = t.length
      then t else m := by
  unfold load_tree
  rcases t with _ | ⟨c, ts⟩
  · simp
  · rcases m with _ | ⟨r, ms⟩
    · by_cases hj : junk = c <;> simp [hj]
    · by_cases hrc : r = c
      · by_cases hlen : ms.length = ts.length <;> simp [hrc, hlen]
      · simp [hrc]

/-- The doubling loop started at a power of two returns a power of two. -/
theorem leafs_loop_pow (fuel : Nat) :
    ∀ (n j : Nat), ∃ i, leafs_loop fuel n (2 ^ j) = 2 ^ i := by
  induction fuel with
  | zero => intro n j; exact ⟨j, rfl⟩
  | succ f ih =>
    intro n j
    unfold leafs_loop
    by_cases h : n ≤ 2 ^ j
    · simp [h]
    · have h2 : 2 * 2 ^ j = 2 ^ (j + 1) := by ring
      simp only [h, if_false, h2]
      exact ih n (j + 1)

/-- With enough fuel, the doubling loop reaches a value `≥ n`. -/
theorem leafs_loop_ge (fuel : Nat) :
    ∀ (n ret : Nat), n ≤ 2 ^ fuel * ret → n ≤ leafs_loop fuel n ret := by
  induction fuel with
  | zero => intro n ret h; simpa [leafs_loop] using h
  | succ f ih =>
    intro n ret h
    unfold leafs_loop
    by_cases hle : n ≤ ret
    · simp [hle]
    · simp only [hle, if_false]
      have heq : 2 ^ (f + 1) * ret = 2 ^ f * (2 * ret) := by ring
      exact ih n (2 * ret) (heq ▸ h)

/-- The doubling loop never overshoots a power of two that is already an
upper bound for both `n` and the running candidate. -/
theorem leafs_loop_min (fuel : Nat) :
    ∀ (n j k : Nat), 2 ^ j ≤ 2 ^ k → n ≤ 2 ^ k →
      leafs_loop fuel n (2 ^ j) ≤ 2 ^ k := by
  induction fuel with
  | zero => intro n j k hj _; simpa [leafs_loop] using hj
  | succ f ih =>
    intro n j k hj hn
    unfold leafs_loop
    by_cases hle : n ≤ 2 ^ j
    · simpa [hle] using hj
    · simp only [hle, if_false]
      have hlt : 2 ^ j < 2 ^ k := lt_of_lt_of_le (lt_of_not_le hle) hn
      have hjk : j < k := (Nat.pow_lt_pow_iff_right (by norm_num)).mp hlt
      have h2 : 2 * 2 ^ j = 2 ^ (j + 1) := by ring
      rw [h2]
      exact ih n (j + 1) k (Nat.pow_le_pow_right (by norm_num) hjk) hn

/-- The modelled leaf count is a power of two. -/
theorem merkle_num_leafs_pow (nb : Int) : ∃ k, merkle_num_leafs nb = 2 ^ k := by
  have h := leafs_loop_pow nb.toNat nb.toNat 0
  simpa [merkle_num_leafs] using h

/-- The modelled leaf count is positive. -/
theorem merkle_num_leafs_pos (nb : Int) : 1 ≤ merkle_num_leafs nb := by
  obtain ⟨k, hk⟩ := merkle_num_leafs_pow nb
  rw [hk]
  exact Nat.one_le_two_pow

/-- The modelled leaf count is at least the block count. -/
theorem merkle_num_leafs_ge (nb : Int) : nb.toNat ≤ merkle_num_leafs nb := by
  refine leafs_loop_ge nb.toNat nb.toNat 1 ?_
  have := Nat.lt_two_pow nb.toNat
  omega

/-- The modelled leaf count is the least power of two above the block
count. -/
theorem merkle_num_leafs_min (nb : Int) (k : Nat) (h : nb.toNat ≤ 2 ^ k) :
    merkle_num_leafs nb ≤ 2 ^ k := by
  have h1 : (1 : Nat) = 2 ^ 0 := rfl
  rw [merkle_num_leafs, h1]
  exact leafs_loop_min nb.toNat nb.toNat 0 k Nat.one_le_two_pow h

/-- Length of a freshly constructed tree. -/
theorem new_tree_length (nb : Int) (r : Hash) :
    (new_tree nb r).length = 2 * merkle_num_leafs nb - 1 := by
  simp [new_tree, merkle_num_nodes]

/-- A freshly constructed tree is never empty. -/
theorem new_tree_ne_nil (nb : Int) (r : Hash) : new_tree nb r ≠ [] := by
  refine List.ne_nil_of_length_pos ?_
  rw [new_tree_length]
  have := merkle_num_leafs_pos nb
  omega

/-- Slot 0 of a freshly constructed tree holds the root digest. -/
theorem new_tree_headD (nb : Int) (r d : Hash) : (new_tree nb r).headD d = r := by
  unfold new_tree
  have hpos : 0 < merkle_num_nodes (merkle_num_leafs nb) := by
    have := merkle_num_leafs_pos nb
    unfold merkle_num_nodes
    omega
  rcases hn : List.replicate (merkle_num_nodes (merkle_num_leafs nb)) zero_hash with _ | ⟨a, l⟩
  · exfalso
    have := congrArg List.length hn
    simp at this
    omega
  · simp

/-- A fold whose every step preserves the length preserves the length. -/
theorem foldl_length_invariant {β : Type} (step : List Hash → β → List Hash)
    (hstep : ∀ acc b, (step acc b).length = acc.length) :
    ∀ (l : List β) (m : List Hash), (l.foldl step m).length = m.length := by
  intro l
  induction l with
  | nil => intro m; rfl
  | cons a l ih => intro m; rw [List.foldl_cons, ih, hstep]

/-- One fill step preserves the length of the node array. -/
theorem fill_step_length (H : Hash → Hash → Hash) (pad : Hash) (valid sz : Nat)
    (m : List Hash) : (fill_step H pad valid sz m).length = m.length := by
  unfold fill_step
  exact foldl_length_invariant _ (fun acc b => List.length_set ..) _ m

/-- The layer walk of fill preserves the length of the node array. -/
theorem fill_levels_length (H : Hash → Hash → Hash) :
    ∀ (k : Nat) (pad : Hash) (valid : Nat) (m : List Hash),
      (fill_levels H k pad valid m).length = m.length := by
  intro k
  induction k with
  | zero => intro pad valid m; rfl
  | succ f ih =>
    intro pad valid m
    unfold fill_levels
    rw [ih, fill_step_length]

/-- Zero-filling a range preserves the length of the node array. -/
theorem zero_range_length :
    ∀ (len : Nat) (m : List Hash) (s : Nat), (zero_range m s len).length = m.length := by
  intro len
  induction len with
  | zero => intro m s; rfl
  | succ l ih =>
    intro m s
    unfold zero_range
    rw [ih, List.length_set]

/-- The layer walk of clear preserves the length of the node array. -/
theorem clear_aux_length :
    ∀ (fuel sz start : Nat) (m : List Hash), (clear_aux fuel sz start m).length = m.length := by
  intro fuel
  induction fuel with
  | zero => intro sz start m; rfl
  | succ f ih =>
    intro sz start m
    unfold clear_aux
    by_cases h1 : sz ≤ 1
    · by_cases h2 : sz = 1 <;> simp [h1, h2, zero_range_length]
    · simp only [h1, if_false]
      rw [ih, zero_range_length]

/-- Zero-filling the range `[s, s+len)` leaves every slot outside it
untouched. -/
theorem zero_range_getElem?_outside :
    ∀ (len : Nat) (m : List Hash) (s i : Nat), (i < s ∨ s + len ≤ i) →
      (zero_range m s len)[i]? = m[i]? := by
  intro len
  induction len with
  | zero => intro m s i _; rfl
  | succ l ih =>
    intro m s i hi
    unfold zero_range
    have hne : s ≠ i := by omega
    rw [ih (m.set s zero_hash) (s + 1) i (by omega), List.getElem?_set_ne hne]

/-- The layer walk of clear leaves every slot outside the targeted index
set untouched. -/
theorem clear_aux_getElem?_outside :
    ∀ (fuel sz start : Nat) (m : List Hash) (i : Nat),
      i ∉ clear_targets_aux fuel sz start →
      (clear_aux fuel sz start m)[i]? = m[i]? := by
  intro fuel
  induction fuel with
  | zero => intro sz start m i _; rfl
  | succ f ih =>
    intro sz start m i hi
    unfold clear_aux
    unfold clear_targets_aux at hi
    by_cases h1 : sz ≤ 1
    · by_cases h2 : sz = 1
      · simp only [h1, h2, if_true, if_pos]
        simp [h2] at hi
        exact zero_range_getElem?_outside 1 m start i (by omega)
      · simp [h1, h2]
    · simp only [h1, if_false] at hi ⊢
      rw [List.mem_append] at hi
      push_neg at hi
      obtain ⟨hmap, hrec⟩ := hi
      have houtside : i < start ∨ start + sz ≤ i := by
        by_contra hcon
        push_neg at hcon
        obtain ⟨hge, hlt⟩ := hcon
        exact hmap (by
          rw [List.mem_map]
          exact ⟨i - start, by rw [List.mem_range]; omega, by omega⟩)
      rw [ih (sz / 2) ((start - 1) / 2) (zero_range m start sz) i hrec,
        zero_range_getElem?_outside sz m start i houtside]

/- ------------------------------------------------------------------ -/
/- Claim theorems                                                     -/
/- ------------------------------------------------------------------ -/

/-- C1: `load_tree` is a no-op (the node sequence is unchanged and nothing
is signalled) unless the candidate is non-empty, the current tree is
non-empty, the candidate's first element equals the current tree's slot 0,
and the lengths agree; when all four hold the node sequence afterwards is
exactly the candidate's contents, never a partial merge.  The statement is
quantified over every value `junk` the unguarded slot-0 read could observe
when the current tree is empty, so the no-op outcome does not depend on
it. -/
theorem load_tree_all_or_nothing (junk : Hash) (m t : List Hash) :
    (¬(t ≠ [] ∧ m ≠ [] ∧ m.headD zero_hash = t.headD zero_hash ∧ m.length = t.length) →
      load_tree junk m t = m) ∧
    ((t ≠ [] ∧ m ≠ [] ∧ m.headD zero_hash = t.headD zero_hash ∧ m.length = t.length) →
      load_tree junk m t = t) := by
  constructor <;> intro h <;> rw [load_tree_eq junk m t]
  · rw [if_neg h]
  · rw [if_pos h]

/-- Witness for C1: a matching candidate of the right length is accepted
wholesale; a candidate whose first element differs is rejected without any
mutation. -/
theorem load_tree_all_or_nothing_witness :
    load_tree 0 [5, 1, 2] [5, 9, 9] = [5, 9, 9] ∧
      load_tree 0 [5, 1, 2] [6, 9, 9] = [5, 1, 2] :=
  ⟨(load_tree_all_or_nothing 0 [5, 1, 2] [5, 9, 9]).2 (by decide),
   (load_tree_all_or_nothing 0 [5, 1, 2] [6, 9, 9]).1 (by decide)⟩

/-- C2 counterexample: on the empty (default-constructed) tree with the
non-empty candidate `[7]`, the source executes the read `m_full_tree[0]`
on the zero-length node array (source line 71 runs before any size check);
under checked subscripts the run faults instead of returning, so the claim
that the slot-0 read is never executed on a zero-length array is false for
the code as shown. -/
theorem load_tree_unguarded_cex :
    load_treeChecked default_tree [7] = none ∧ default_tree.length = 0 := by decide

/-- C2 amended: for every non-empty candidate, `load_tree` on the empty
(default-constructed) tree leaves the tree unchanged, but the slot-0 read
of the current tree IS executed on the zero-length node array (the source
shows the unguarded revision): under checked subscripts the run faults. -/
theorem load_tree_on_empty_tree (t : List Hash) (junk : Hash) (ht : t ≠ []) :
    load_tree junk default_tree t = default_tree ∧
      load_treeChecked default_tree t = none := by
  rcases t with _ | ⟨c, ts⟩
  · exact absurd rfl ht
  · constructor
    · rw [load_tree_eq]
      simp [default_tree]
    · simp [load_treeChecked, default_tree]

/-- Witness for C2's amended statement at the candidate `[8]`. -/
theorem load_tree_on_empty_tree_witness :
    load_tree 3 default_tree [8] = default_tree ∧
      load_treeChecked default_tree [8] = none :=
  load_tree_on_empty_tree [8] 3 (by decide)

/-- C3 counterexample: constructing with `block_count = 0` does not fail
and does not produce "no tree": it silently yields the one-node tree whose
single slot is the given root digest (no validation exists on source lines
59-63). -/
theorem new_tree_zero_blocks_cex :
    new_tree 0 7 = [7] ∧ new_tree 0 7 ≠ ([] : List Hash) := by decide

/-- C3 amended: the constructor performs no validation; for every
`block_count < 1` no InvalidArgument condition is signalled — the leaf
count saturates at 1 and the constructor silently yields the one-node tree
`[root]`. -/
theorem new_tree_nonpositive (nb : Int) (h : nb < 1) (r : Hash) :
    new_tree nb r = [r] := by
  have h0 : nb.toNat = 0 := by omega
  unfold new_tree merkle_num_leafs
  rw [h0]
  rfl

/-- Witness for C3's amended statement at `block_count = -1`. -/
theorem new_tree_nonpositive_witness : new_tree (-1) 9 = [9] :=
  new_tree_nonpositive (-1) (by decide) 9

/-- C4 counterexample: the public mutable `operator[]` (source lines 91-92)
lets a caller overwrite slot 0 directly: on the tree constructed with root
`5`, the indexed write `tree[0] = 7` (not a `load_tree` acceptance) changes
the root slot from `5` to `7`, so the claimed invariant over all public
operations is false. -/
theorem set_node_overwrites_root_cex :
    (set_node (new_tree 1 5) 0 7)[0]? = some 7 ∧
      (new_tree 1 5)[0]? = some 5 ∧ (7 : Hash) ≠ 5 := by decide

/-- C4 amended: `load_tree` itself never changes slot 0 — on rejection
nothing changes, and on acceptance the candidate's slot 0 equals the
current one — but the public interface does not protect the root slot: an
indexed write through `operator[]` (and an unconditional `fill`
recomputation) can overwrite it. -/
theorem load_tree_preserves_root_slot (junk : Hash) (m t : List Hash) :
    (load_tree junk m t)[0]? = m[0]? := by
  rw [load_tree_eq]
  split_ifs with h
  · obtain ⟨ht, hm, hhead, _⟩ := h
    rcases m with _ | ⟨r, ms⟩
    · exact absurd rfl hm
    · rcases t with _ | ⟨c, ts⟩
      · exact absurd rfl ht
      · simp only [List.headD_cons] at hhead
        simp [hhead]
  · rfl

/-- C5: for `n ≥ 1` the constructed tree has `root() = r`, node count
`2*L - 1` where `L = leaf_count n` is the smallest power of two `≥ n`, and
every slot other than slot 0 holds the zero digest. -/
theorem new_tree_spec (nb : Int) (r : Hash) (h : 1 ≤ nb) :
    (new_tree nb r).length = 2 * merkle_num_leafs nb - 1 ∧
    (new_tree nb r)[0]? = some r ∧
    (∀ i : Nat, 0 < i → i < (new_tree nb r).length → (new_tree nb r)[i]? = some zero_hash) ∧
    (∃ k : Nat, merkle_num_leafs nb = 2 ^ k) ∧
    nb ≤ (merkle_num_leafs nb : Int) ∧
    (∀ k : Nat, nb ≤ ((2 ^ k : Nat) : Int) → merkle_num_leafs nb ≤ 2 ^ k) := by
  refine ⟨new_tree_length nb r, ?_, ?_, merkle_num_leafs_pow nb, ?_, ?_⟩
  · unfold new_tree
    refine List.getElem?_set_self ?_
    rw [List.length_replicate]
    have := merkle_num_leafs_pos nb
    unfold merkle_num_nodes
    omega
  · intro i hi hilt
    rw [new_tree_length] at hilt
    unfold new_tree
    rw [List.getElem?_set_ne (by omega : (0 : Nat) ≠ i), List.getElem?_replicate,
      if_pos (show i < merkle_num_nodes (merkle_num_leafs nb) by unfold merkle_num_nodes; omega)]
  · have hge := merkle_num_leafs_ge nb
    omega
  · intro k hk
    refine merkle_num_leafs_min nb k ?_
    omega

/-- Witness for C5 at `n = 5`, `r = 9`: fifteen nodes (`L = 8`), root slot
`9`, interior slot 3 zero. -/
theorem new_tree_spec_witness :
    (1 : Int) ≤ 5 ∧ (new_tree 5 9).length = 2 * merkle_num_leafs 5 - 1 ∧
      (new_tree 5 9)[0]? = some 9 ∧ (new_tree 5 9)[3]? = some zero_hash := by
  have h := new_tree_spec 5 9 (by decide)
  exact ⟨by decide, h.1, h.2.1, h.2.2.1 3 (by decide) (by decide)⟩

/-- C6: for every non-empty tree with `T` nodes, the `leafs()` view has
`count = (T+1)/2` entries and its `i`-th entry is the node at index
`T - count + i`, i.e. the view covers exactly the index range
`[T - count, T)`. -/
theorem leafs_view_range (m : List Hash) (h : m ≠ []) :
    (leafs m).length = (m.length + 1) / 2 ∧
    (∀ i : Nat, i < (m.length + 1) / 2 →
      (leafs m)[i]? = m[m.length - (m.length + 1) / 2 + i]?) := by
  have hpos : 0 < m.length := List.length_pos.mpr h
  constructor
  · unfold leafs
    rw [List.length_take, List.length_drop]
    omega
  · intro i hi
    unfold leafs
    rw [List.getElem?_take, if_pos hi, List.getElem?_drop]

/-- Witness for C6 at the single-node tree `[5]` (`T = 1`): the view has
one entry starting at index 0, the root doubling as the sole leaf. -/
theorem leafs_view_range_witness :
    (leafs [5]).length = (([5] : List Hash).length + 1) / 2 ∧
      (leafs [5])[0]? =
        ([5] : List Hash)[([5] : List Hash).length - (([5] : List Hash).length + 1) / 2 + 0]? := by
  have h := leafs_view_range [5] (by decide)
  exact ⟨h.1, h.2 0 (by decide)⟩

/-- C7: on a tree for `n = 3` blocks (`L = 4`, seven nodes, leaves
`h1, h2, h3` and an arbitrary stored value `x` in the fourth leaf slot),
`fill` with `piece_layer_size = 3` substitutes `pad_hash 0` for the fourth
leaf position — the result does not depend on `x` — and slot 0 afterwards
equals the pairwise hash of the three real piece hashes and one
`pad_hash 0` folded up to the root. -/
theorem fill_padding_root (H : Hash → Hash → Hash) (p0 a b c h1 h2 h3 x : Hash) :
    merkle_fill_tree H p0 [a, b, c, h1, h2, h3, x] 3 =
      [H (H h1 h2) (H h3 (pad_hash H p0 0)), H h1 h2, H h3 (pad_hash H p0 0),
        h1, h2, h3, x] := by
  unfold merkle_fill_tree
  norm_num [log2_aux]
  norm_num [fill_levels, fill_step, List.range_succ, pad_hash]

/-- C8 counterexample: the unvalidated vector constructor (source line 64)
is public, so the non-empty tree `from_vector [1,2,3,4]` with four nodes is
reachable; every complete-tree node count `2*L - 1` with `L ≥ 1` is odd,
while this reachable tree's length 4 is even, so the claimed shape
invariant over all reachable trees is false. -/
theorem vector_ctor_shape_cex :
    from_vector [1, 2, 3, 4] ≠ [] ∧ (from_vector [1, 2, 3, 4]).length = 4 ∧
      (from_vector [1, 2, 3, 4]).length % 2 = 0 := by decide

/-- C8 amended: trees built by the validated constructor have node count
`2*L - 1` for a power of two `L`; every operation (`load_tree`, `fill`,
`clear`, indexed write) preserves the node-sequence length, and `clear`
only resets contents — every slot outside the targeted layers is left
untouched.  The unvalidated vector constructor, however, can create
reachable non-empty trees of arbitrary length. -/
theorem ops_preserve_shape (H : Hash → Hash → Hash)
    (p0 junk v r : Hash) (m t : List Hash) (nb : Int) (i idx p nl ls : Nat) :
    (1 ≤ nb → ∃ k : Nat, (new_tree nb r).length = 2 * 2 ^ k - 1) ∧
    (load_tree junk m t).length = m.length ∧
    (merkle_fill_tree H p0 m p).length = m.length ∧
    (merkle_clear_tree m nl ls).length = m.length ∧
    (set_node m idx v).length = m.length ∧
    (i ∉ clear_targets nl ls → (merkle_clear_tree m nl ls)[i]? = m[i]?) := by
  refine ⟨?_, ?_, ?_, ?_, List.length_set .., ?_⟩
  · intro _
    obtain ⟨k, hk⟩ := merkle_num_leafs_pow nb
    exact ⟨k, by rw [new_tree_length, hk]⟩
  · rw [load_tree_eq]
    split_ifs with h
    · exact h.2.2.2.symm
    · rfl
  · unfold merkle_fill_tree
    rw [fill_levels_length]
  · unfold merkle_clear_tree
    exact clear_aux_length ..
  · intro hi
    unfold merkle_clear_tree clear_targets at *
    exact clear_aux_getElem?_outside _ _ _ m i hi

/-- Witness for C8's amended statement on a seven-node tree: lengths are
preserved by every operation and slot 4, outside the layers targeted by
`clear 2 1`, is untouched. -/
theorem ops_preserve_shape_witness :
    (∃ k : Nat, (new_tree 2 9).length = 2 * 2 ^ k - 1) ∧
      (load_tree 8 [1, 2, 3, 4, 5, 6, 7] [9, 9, 9]).length = 7 ∧
      (merkle_fill_tree (fun a b => a + b) 0 [1, 2, 3, 4, 5, 6, 7] 3).length = 7 ∧
      (merkle_clear_tree [1, 2, 3, 4, 5, 6, 7] 2 1).length = 7 ∧
      (set_node [1, 2, 3, 4, 5, 6, 7] 2 0).length = 7 ∧
      (merkle_clear_tree [1, 2, 3, 4, 5, 6, 7] 2 1)[4]? =
        ([1, 2, 3, 4, 5, 6, 7] : List Hash)[4]? := by
  have h := ops_preserve_shape (fun a b => a + b) 0 8 0 9
    [1, 2, 3, 4, 5, 6, 7] [9, 9, 9] 2 4 2 3 2 1
  exact ⟨h.1 (by decide), h.2.1, h.2.2.1, h.2.2.2.1, h.2.2.2.2.1, h.2.2.2.2.2 (by decide)⟩

/-- C9: exporting a tree's full node sequence (`build_vector`) and loading
that export into a freshly constructed tree with the same root and the same
block count is always accepted and reproduces the original node sequence
identically. -/
theorem round_trip (junk : Hash) (nb : Int) (m : List Hash) (hne : m ≠ [])
    (hlen : m.length = merkle_num_nodes (merkle_num_leafs nb)) :
    load_tree junk (new_tree nb (m.headD zero_hash)) (build_vector m) = m := by
  have hcond : build_vector m ≠ [] ∧ new_tree nb (m.headD zero_hash) ≠ [] ∧
      (new_tree nb (m.headD zero_hash)).headD zero_hash = (build_vector m).headD zero_hash ∧
      (new_tree nb (m.headD zero_hash)).length = (build_vector m).length := by
    refine ⟨hne, new_tree_ne_nil nb (m.headD zero_hash), ?_, ?_⟩
    · rw [new_tree_headD]
      rfl
    · unfold build_vector
      rw [new_tree_length, hlen]
      rfl
  rw [load_tree_eq, if_pos hcond]
  rfl

/-- Witness for C9: a three-node tree for `n = 2` blocks round-trips. -/
theorem round_trip_witness :
    load_tree 0 (new_tree 2 (([9, 4, 6] : List Hash).headD zero_hash))
        (build_vector [9, 4, 6]) = [9, 4, 6] :=
  round_trip 0 2 [9, 4, 6] (by decide) (by decide)

/-- C10: `root()` reads element 0 unconditionally.  On every non-empty tree
the read is in bounds and yields the first element (the value is the same
for every junk value, i.e. no out-of-bounds memory is observed); on the
empty tree — reachable through the default constructor and through the
unvalidated vector constructor applied to an empty sequence — the checked
read faults and the unchecked result is exactly the out-of-bounds junk
value, so non-emptiness is required for `root()` to be safe. -/
theorem root_access (m : List Hash) (j j' : Hash) :
    (m ≠ [] → root_val j m = root_val j' m ∧ rootChecked m = some (root_val j m)) ∧
    rootChecked default_tree = none ∧
    root_val j default_tree = j ∧
    rootChecked (from_vector []) = none := by
  refine ⟨?_, rfl, rfl, rfl⟩
  intro h
  rcases m with _ | ⟨a, l⟩
  · exact absurd rfl h
  · exact ⟨rfl, by simp [rootChecked, root_val]⟩

/-- Witness for C10 on the two-node tree `[7, 8]` and junk values 1, 2. -/
theorem root_access_witness :
    (root_val 1 [7, 8] = root_val 2 [7, 8] ∧ rootChecked [7, 8] = some (root_val 1 [7, 8])) ∧
      rootChecked default_tree = none ∧ root_val 1 default_tree = 1 ∧
      rootChecked (from_vector []) = none := by
  have h := root_access [7, 8] 1 2
  exact ⟨h.1 (by decide), h.2⟩

end LibtorrentMerkle
